import Mathlib

/-!
Verification of the CHIKAVO Telegram-export analysis pipeline.

The definitions below are a shallow embedding of the Python
sources (`src/telegram_analysis.py`, `src/app.py`, `src/utils.py`):
message records become Lean structures, the normalization / aggregation /
ranking functions become executable Lean functions, and the theorems at the
end of the file settle the claims of the specification about them.
-/

namespace Chikavo

/-! ## Python string primitives

Models of the CPython behaviours the analysis code relies on:
`str.isspace` (also what `\s` matches in `re` for text patterns),
`str.lower` (Unicode simple lowercase; modelled on the ASCII and Cyrillic
ranges, the only scripts the analysis manipulates), and `str.strip`. -/

/-- Characters Python treats as whitespace (`str.isspace`, regex `\s`). -/
def pyIsSpace (c : Char) : Bool :=
  let n := c.toNat
  decide ((9 ≤ n ∧ n ≤ 13) ∨ (28 ≤ n ∧ n ≤ 31) ∨ n = 32 ∨ n = 0x85 ∨
    n = 0xA0 ∨ n = 0x1680 ∨ (0x2000 ≤ n ∧ n ≤ 0x200A) ∨ n = 0x2028 ∨
    n = 0x2029 ∨ n = 0x202F ∨ n = 0x205F ∨ n = 0x3000)

/-- Python `str.lower` on one character: ASCII `A`-`Z`, Cyrillic `А`-`Я` (U+0410..U+042F)
and `Ѐ`-`Џ` (U+0400..U+040F, which contains `Ё`) map to their lowercase forms;
every other character is returned unchanged. -/
def pyLowerChar (c : Char) : Char :=
  let n := c.toNat
  if 65 ≤ n ∧ n ≤ 90 then Char.ofNat (n + 32)
  else if 0x410 ≤ n ∧ n ≤ 0x42F then Char.ofNat (n + 0x20)
  else if 0x400 ≤ n ∧ n ≤ 0x40F then Char.ofNat (n + 0x50)
  else c

/-- Python `str.lower` on a string. -/
def pyLower (s : String) : String := ⟨s.data.map pyLowerChar⟩

/-- Python `str.strip()` on a character list: drop whitespace from both ends. -/
def pyStripChars (l : List Char) : List Char :=
  ((l.dropWhile pyIsSpace).reverse.dropWhile pyIsSpace).reverse

/-- Python `str.strip()`. -/
def pyStrip (s : String) : String := ⟨pyStripChars s.data⟩

/-! ## Date parsing (`datetime.fromisoformat`)

Model of the CPython (≤ 3.10) `datetime.fromisoformat` grammar
`YYYY-MM-DD[*HH[:MM[:SS[.fff[fff]]]][±HH:MM[:SS[.ffffff]]]]`, with range
validation of every component, and of `date.toordinal` (proleptic Gregorian
day number), which serves as the calendar-day key the aggregation groups on. -/

/-- Numeric value of a decimal digit character, `none` for non-digits. -/
def digitVal (c : Char) : Option Nat :=
  if 48 ≤ c.toNat ∧ c.toNat ≤ 57 then some (c.toNat - 48) else none

def twoDigits (a b : Char) : Option Nat := do
  pure ((← digitVal a) * 10 + (← digitVal b))

def fourDigits (a b c d : Char) : Option Nat := do
  pure (((← digitVal a) * 10 + (← digitVal b)) * 100 +
    ((← digitVal c) * 10 + (← digitVal d)))

def allDigits (l : List Char) : Bool := l.all (fun c => (digitVal c).isSome)

/-- Gregorian leap-year test (`calendar.isleap`). -/
def isLeap (y : Nat) : Bool :=
  decide (y % 4 = 0 ∧ (y % 100 ≠ 0 ∨ y % 400 = 0))

/-- Days in month `m` of year `y` (months numbered 1..12). -/
def daysInMonth (y m : Nat) : Nat :=
  if m = 2 then (if isLeap y then 29 else 28)
  else if m = 4 ∨ m = 6 ∨ m = 9 ∨ m = 11 then 30
  else 31

/-- Days in year `y` strictly before month `m`. -/
def daysBeforeMonth (y m : Nat) : Nat :=
  ((List.range' 1 (m - 1)).map (daysInMonth y)).sum

/-- Python `date(y, m, d).toordinal()`: proleptic Gregorian ordinal of the date. -/
def toordinal (y m d : Nat) : Nat :=
  365 * (y - 1) + (y - 1) / 4 - (y - 1) / 100 + (y - 1) / 400 +
    daysBeforeMonth y m + d

/-- Result of a successful `datetime.fromisoformat` parse (fields the
analysis reads: the calendar date and the clock time). -/
structure PyDateTime where
  year : Nat
  month : Nat
  day : Nat
  hour : Nat
  minute : Nat
  second : Nat
deriving Repr, DecidableEq

/-- Timezone suffix `±HH:MM[:SS[.ffffff]]` of the ISO time grammar
(empty suffix allowed). -/
def tzValid : List Char → Bool
  | [] => true
  | sgn :: h1 :: h2 :: ':' :: m1 :: m2 :: rest =>
    decide (sgn = '+' ∨ sgn = '-') &&
    (match twoDigits h1 h2, twoDigits m1 m2 with
     | some th, some tm =>
       decide (th ≤ 23 ∧ tm ≤ 59) &&
       (match rest with
        | [] => true
        | ':' :: s1 :: s2 :: rest2 =>
          (match twoDigits s1 s2 with
           | some ts =>
             decide (ts ≤ 59) &&
             (match rest2 with
              | [] => true
              | '.' :: fr => decide (fr.length = 6) && allDigits fr
              | _ => false)
           | none => false)
        | _ => false)
     | _, _ => false)
  | _ => false

/-- Time-of-day part `HH[:MM[:SS[.fff[fff]]]]` followed by an optional
timezone suffix; returns `(hour, minute, second)`. -/
def parseTimePart (l : List Char) : Option (Nat × Nat × Nat) :=
  match l with
  | h1 :: h2 :: rest => do
    let h ← twoDigits h1 h2
    if h ≤ 23 then
      match rest with
      | [] => some (h, 0, 0)
      | ':' :: m1 :: m2 :: rest2 => do
        let m ← twoDigits m1 m2
        if m ≤ 59 then
          match rest2 with
          | [] => some (h, m, 0)
          | ':' :: s1 :: s2 :: rest3 => do
            let s ← twoDigits s1 s2
            if s ≤ 59 then
              match rest3 with
              | [] => some (h, m, s)
              | '.' :: rest4 =>
                let fr := rest4.takeWhile (fun c => (digitVal c).isSome)
                let tl := rest4.drop fr.length
                if (fr.length = 3 ∨ fr.length = 6) ∧ tzValid tl then
                  some (h, m, s)
                else none
              | _ => if tzValid rest3 then some (h, m, s) else none
            else none
          | _ => if tzValid rest2 then some (h, m, 0) else none
        else none
      | _ => if tzValid rest then some (h, 0, 0) else none
    else none
  | _ => none

/-- Model of `datetime.fromisoformat`: `YYYY-MM-DD`, then optionally one separator
character (any character) and a time-of-day part. Returns `none` exactly
where CPython raises `ValueError`. -/
def fromisoformat (s : String) : Option PyDateTime :=
  match s.data with
  | y1 :: y2 :: y3 :: y4 :: '-' :: mo1 :: mo2 :: '-' :: d1 :: d2 :: rest => do
    let y ← fourDigits y1 y2 y3 y4
    let mo ← twoDigits mo1 mo2
    let d ← twoDigits d1 d2
    if 1 ≤ y ∧ 1 ≤ mo ∧ mo ≤ 12 ∧ 1 ≤ d ∧ d ≤ daysInMonth y mo then
      match rest with
      | [] => some ⟨y, mo, d, 0, 0, 0⟩
      | _ :: trest =>
        match parseTimePart trest with
        | some (h, mi, se) => some ⟨y, mo, d, h, mi, se⟩
        | none => none
    else none
  | _ => none

/-! ## Raw data model

`RawMessage` mirrors one entry of the `messages` list of the export: every field
the analysis reads via `msg.get(...)` / `"…" in msg` is an `Option` (or a
presence `Bool` for the fields only tested for membership). -/

/-- One element of a list-shaped `text` field: a plain string fragment, a
dict (with or without a `"text"` key), or any other JSON value (skipped). -/
inductive TextItem where
  | str (s : String)
  | obj (t : Option String)
  | other
deriving Repr, DecidableEq

/-- The variant-shaped `text` field: a plain string, a list of fragments,
or any other JSON value. An absent `text` key is `str ""` (the code reads
`msg.get("text", "")`). -/
inductive TextField where
  | str (s : String)
  | list (items : List TextItem)
  | other
deriving Repr, DecidableEq

/-- One element of the `recent` list of a reaction (`recent_info.get("from")`). -/
structure RecentEntry where
  «from» : Option String
deriving Repr, DecidableEq

/-- One element of the `reactions` list of a message. -/
structure Reaction where
  type : Option String
  emoji : Option String
  count : Option Int
  recent : List RecentEntry
deriving Repr, DecidableEq

/-- One raw message record of the export. -/
structure RawMessage where
  date : Option String
  «from» : Option String
  media_type : Option String
  photo : Bool
  document : Bool
  duration_seconds : Option Int
  sticker_emoji : Option String
  text : TextField
  reactions : List Reaction
deriving Repr, DecidableEq

/-- The whole uploaded document: `data.get("messages", [])`. -/
structure TgData where
  messages : Option (List RawMessage)
deriving Repr, DecidableEq

/-- The codomain of the message-type classification (the `mtype` strings). -/
inductive MType where
  | text
  | audioVoice
  | video
  | sticker
  | photo
  | file
deriving Repr, DecidableEq

/-- One normalized row of the detailed table built by `process_json`
(`date` is the day ordinal of `dt.date()`). -/
structure Row where
  date : Nat
  hour : Nat
  type : MType
  sender : Option String
  duration : Option Int
  sticker_emoji : Option String
  text : String
  text_length : Nat
deriving Repr, DecidableEq

/-! ## `src/utils.py` -/

/-- The character classification table of the `emoji` package (`emoji.EMOJI_DATA`).
Modelled from the spec: the "fixed emoji classification table" of §4.1 — an external
package resource, represented here by the pictographic code-point blocks it
covers. None of the claims depend on the exact extension of this set. -/
def isEmojiChar (c : Char) : Bool :=
  let n := c.toNat
  decide ((0x1F300 ≤ n ∧ n ≤ 0x1FAFF) ∨ (0x2600 ≤ n ∧ n ≤ 0x27BF) ∨
    (0x2190 ≤ n ∧ n ≤ 0x21FF) ∨ (0x2B00 ≤ n ∧ n ≤ 0x2BFF) ∨
    n = 0x2764 ∨ n = 0x203C ∨ n = 0x2049)

/-- Embedding of `extract_emojis`: the characters of `text` that are in the emoji table,
in order. -/
def extract_emojis (text : String) : List Char :=
  text.data.filter isEmojiChar

/-! ## `src/telegram_analysis.py`: the message normalizer -/

/-- Sender resolution (lines 41-43): `from` is kept unless it is absent,
falsy (the empty string), blank after stripping, or case-insensitively
equal to `"unknown"`. -/
def resolveSender (s : Option String) : Option String :=
  match s with
  | none => none
  | some v =>
    if v = "" ∨ pyStrip v = "" ∨ pyLower v = "unknown" then none else some v

/-- The `if`/`elif` classification chain (lines 46-65), computing the
`(mtype, duration, sticker_emoji)` triple from its defaults
`("text", None, None)`. -/
def classifyFields (m : RawMessage) : MType × Option Int × Option String :=
  if m.media_type = some "voice_message" then (.audioVoice, m.duration_seconds, none)
  else if m.media_type = some "video_message" then (.video, m.duration_seconds, none)
  else if m.media_type = some "sticker" then (.sticker, none, m.sticker_emoji)
  else if m.photo then (.photo, none, none)
  else if m.document then (.file, none, none)
  else (.text, none, none)

/-- The message type assigned by the classification chain. -/
def classify (m : RawMessage) : MType := (classifyFields m).1

/-- Flattening of the variant `text` field (lines 81-91): a list is folded
by appending each string fragment (or the `"text"` value of each dict) plus a
space, then stripped; a plain string is used as-is; anything else gives `""`. -/
def flattenText : TextField → String
  | .str s => s
  | .list items =>
    pyStrip ⟨(items.foldl (fun acc it =>
      match it with
      | .str s => acc ++ s.data ++ [' ']
      | .obj (some t) => acc ++ t.data ++ [' ']
      | .obj none => acc
      | .other => acc) [])⟩
  | .other => ""

/-- One iteration of the normalization loop (lines 30-100): skip the message
when `date` is absent or fails ISO parsing, otherwise emit one row. -/
def normalizeMsg (m : RawMessage) : Option Row :=
  match m.date with
  | none => none
  | some ds =>
    match fromisoformat ds with
    | none => none
    | some dt =>
      let fields := classifyFields m
      let base : Row :=
        { date := toordinal dt.year dt.month dt.day
          hour := dt.hour
          type := fields.1
          sender := resolveSender m.«from»
          duration := fields.2.1
          sticker_emoji := fields.2.2
          text := ""
          text_length := 0 }
      if fields.1 = .text then
        let t := flattenText m.text
        some { base with text := t, text_length := t.length }
      else some base

/-- The rows the loop accumulates, in message order. -/
def normalizedRows (msgs : List RawMessage) : List Row :=
  msgs.filterMap normalizeMsg

/-- The `text_corpus` accumulator: the non-empty flattened texts of the
text-typed rows, in row order (only text-typed iterations append). -/
def corpusParts (rows : List Row) : List String :=
  rows.filterMap (fun r =>
    if r.type = .text ∧ r.text ≠ "" then some r.text else none)

/-- Joining of character lists with a single-space separator
(Python `" ".join`). -/
def joinWords : List (List Char) → List Char
  | [] => []
  | [w] => w
  | w :: ws => w ++ ' ' :: joinWords ws

/-- Python `" ".join` on strings. -/
def pyJoin (parts : List String) : String :=
  ⟨joinWords (parts.map String.data)⟩

/-- Model of the join `" ".join(text_corpus)` (line 118). -/
def corpusOf (rows : List Row) : String :=
  pyJoin (corpusParts rows)

/-- The `emojis_list` accumulator: `extract_emojis` is run over the flattened
text of every text-typed iteration (lines 97-98). -/
def emojisOf (rows : List Row) : List Char :=
  rows.flatMap (fun r => if r.type = .text then extract_emojis r.text else [])

/-! ## Aggregation (lines 106-116)

`daily_counts = df.groupby("date").size()` counts the rows of each distinct
date, with the dates in ascending order; `pd.date_range(min, max)` is the
run of consecutive calendar days from the earliest to the latest date; the
left merge followed by `fillna(0)` keeps the `all_dates` order and gives each
day its group size, or `0` for days with no rows. The composite is therefore:
for each ordinal `d` from the minimum to the maximum row date, the pair
`(d, number of rows with date d)`. -/

/-- Minimum of a list of naturals (`0` on the empty list, which the caller
excludes). -/
def natsMin : List Nat → Nat
  | [] => 0
  | x :: xs => xs.foldl Nat.min x

/-- Maximum of a list of naturals. -/
def natsMax : List Nat → Nat
  | [] => 0
  | x :: xs => xs.foldl Nat.max x

/-- The zero-filled daily series of lines 109-115. -/
def dailyCountsOf (rows : List Row) : List (Nat × Nat) :=
  let dates := rows.map (fun r => r.date)
  let lo := natsMin dates
  let hi := natsMax dates
  (List.range' lo (hi + 1 - lo)).map
    (fun d => (d, (rows.filter (fun r => r.date = d)).length))

/-- Embedding of `process_json` (lines 9-118): `data.get("messages", [])`, the
normalization loop, the empty-rows bailout (`return None, None, None, None`),
and the four artifacts. -/
def process_json (d : TgData) :
    Option (List (Nat × Nat) × String × List Row × List Char) :=
  let rows := normalizedRows (d.messages.getD [])
  if rows.isEmpty then none
  else some (dailyCountsOf rows, corpusOf rows, rows, emojisOf rows)

/-! ## Counting and top-N selection

`collections.Counter` iterates its keys in first-insertion order, which for
a counted list is first-occurrence order; `Counter.most_common(n)` sorts the
items by count descending with a stable sort and keeps the first `n`
(documented: "Elements with equal counts are ordered in the order first
encountered"). `Series.value_counts()` likewise counts unique values in
first-appearance order and sorts by count descending with a stable sort
(pandas `sort_values(..., kind="stable")`), and `.head(n)` keeps the first
`n`. Both are modelled by `counterItems` + `mostCommon`. -/

/-- First occurrence of each element, in first-occurrence order
(the key order of a `Counter` / hash table built from the list). -/
def dedupFirst {α : Type} [DecidableEq α] : List α → List α
  | [] => []
  | x :: xs => x :: (dedupFirst xs).filter (fun y => y ≠ x)

/-- The items of `Counter(ws)`: each distinct element with its multiplicity,
in first-occurrence order. -/
def counterItems {α : Type} [DecidableEq α] (ws : List α) : List (α × Nat) :=
  (dedupFirst ws).map (fun w => (w, ws.count w))

/-- Stable descending insertion by count: `x` is placed before the first
entry whose count is `≤` its own, hence after every strictly larger one and
before every equal one (stability). -/
def insertDesc {α β : Type} [LinearOrder β] (x : α × β) :
    List (α × β) → List (α × β)
  | [] => [x]
  | y :: ys => if y.2 ≤ x.2 then x :: y :: ys else y :: insertDesc x ys

/-- Stable sort by count descending (the sort both `most_common` and
`value_counts` perform). -/
def sortDesc {α β : Type} [LinearOrder β] : List (α × β) → List (α × β)
  | [] => []
  | x :: xs => insertDesc x (sortDesc xs)

/-- Model of `most_common(n)` / `value_counts().head(n)`: stable descending sort,
then the first `n` entries. -/
def mostCommon {α β : Type} [LinearOrder β] (n : Nat) (items : List (α × β)) :
    List (α × β) :=
  (sortDesc items).take n

/-! ## `get_word_frequency` (lines 121-140) -/

/-- The character class of `re.sub(r"[^а-яa-z\s]", "", text)`: kept are
exactly `а`-`я` (U+0430..U+044F), `a`-`z`, and whitespace. -/
def keepChar (c : Char) : Bool :=
  decide ((0x430 ≤ c.toNat ∧ c.toNat ≤ 0x44F) ∨ (97 ≤ c.toNat ∧ c.toNat ≤ 122))
    || pyIsSpace c

/-- Model of `re.sub(r"[^а-яa-z\s]", "", ·)`: each character matching the negated
class is replaced by the empty string, i.e. removed. -/
def reSubChars : List Char → List Char
  | [] => []
  | c :: cs => if keepChar c then c :: reSubChars cs else reSubChars cs

/-- Worker for `str.split()`: whitespace separates tokens, runs of
whitespace collapse, and no empty token is produced. -/
def pySplitAux : List Char → List Char → List (List Char)
  | [], acc => if acc.isEmpty then [] else [acc.reverse]
  | c :: cs, acc =>
    if pyIsSpace c then
      if acc.isEmpty then pySplitAux cs [] else acc.reverse :: pySplitAux cs []
    else pySplitAux cs (c :: acc)

/-- Python `str.split()` with no arguments. -/
def pySplit (l : List Char) : List (List Char) := pySplitAux l []

/-- The token list of `get_word_frequency` before stopword filtering:
lowercase, strip the non-letter characters, split on whitespace
(lines 133-135). -/
def gwfWords (text : String) : List String :=
  (pySplit (reSubChars (pyLower text).data)).map (fun w => String.mk w)

/-- The token list after the stopword filter (lines 136-138; `stop_words`
defaults to the empty set when `None`). -/
def gwfKept (text : String) (stop_words : Option (List String)) : List String :=
  (gwfWords text).filter (fun w => decide (w ∉ stop_words.getD []))

/-- Embedding of `get_word_frequency(text, stop_words, top_n)`: lowercase,
strip the non-letter characters, split on whitespace, drop stopwords, count,
return the top `top_n` (lines 121-140). -/
def get_word_frequency (text : String) (stop_words : Option (List String))
    (top_n : Nat) : List (String × Nat) :=
  mostCommon top_n (counterItems (gwfKept text stop_words))

/-! ## `src/app.py`: pipeline shell, top-N tables, reaction tally -/

/-- Outcome of the `run_app` data path: the `json.load` failure branch
(line 26, error reported and nothing else produced), the
`daily_counts is None` bailout (lines 30-31, after `process_json` reported
"Нет данных для обработки"), or the four artifacts handed to the charts. -/
inductive PipelineResult where
  | parseError
  | noUsableData
  | artifacts (daily : List (Nat × Nat)) (corpus : String) (rows : List Row)
      (emojis : List Char)
deriving Repr, DecidableEq

/-- The upload-to-artifacts prefix of `run_app` (lines 23-31); the input is
the outcome of `json.load` on the uploaded file. -/
def runPipeline (input : Except Unit TgData) : PipelineResult :=
  match input with
  | .error _ => .parseError
  | .ok d =>
    match process_json d with
    | none => .noUsableData
    | some (dc, c, rows, em) => .artifacts dc c rows em

/-- The `sticker_emoji` values fed to `value_counts` (lines 193, 210):
the emojis of the sticker-typed rows, `dropna`-filtered. -/
def stickerEmojiValues (rows : List Row) : List String :=
  (rows.filter (fun r => r.type = .sticker)).filterMap (fun r => r.sticker_emoji)

/-- The top-10 sticker table (lines 210-215). -/
def stickerTable (rows : List Row) : List (String × Nat) :=
  mostCommon 10 (counterItems (stickerEmojiValues rows))

/-- The top-10 text-emoji table (`Counter(emojis_list).most_common(10)`,
lines 235-236). -/
def textEmojiTable (emojis : List Char) : List (Char × Nat) :=
  mostCommon 10 (counterItems emojis)

/-- The word ranking of line 311 (`top_n=20`). -/
def wordTable (corpus : String) (sw : Option (List String)) :
    List (String × Nat) :=
  get_word_frequency corpus sw 20

/-- The `(emoji, count)` increments applied to `reaction_emoji_counter`
(lines 260-266): one per emoji-kind reaction, in document order, with
`r.get("count", 0)`. -/
def reactionCountPairs (msgs : List RawMessage) : List (Option String × Int) :=
  msgs.flatMap (fun m =>
    (m.reactions.filter (fun r => r.type = some "emoji")).map
      (fun r => (r.emoji, r.count.getD 0)))

/-- Folding `counter[key] += value` increments: an existing key is bumped in
place, a new key is appended (first-insertion key order, as in `Counter`). -/
def tallyFold (ps : List (Option String × Int)) : List (Option String × Int) :=
  ps.foldl (fun acc p =>
    if acc.any (fun q => q.1 = p.1) then
      acc.map (fun q => if q.1 = p.1 then (q.1, q.2 + p.2) else q)
    else acc ++ [p]) []

/-- The items of `reaction_emoji_counter`. -/
def reactionTally (msgs : List RawMessage) : List (Option String × Int) :=
  tallyFold (reactionCountPairs msgs)

/-- Value of a tally at a key (`Counter` lookup, `0` when absent). -/
def tallyGet (t : List (Option String × Int)) (e : Option String) : Int :=
  match t.find? (fun p => p.1 = e) with
  | some p => p.2
  | none => 0

/-- The per-emoji reaction total of the claim: `reaction_emoji_counter[e]`. -/
def reactionEmojiTotal (msgs : List RawMessage) (e : Option String) : Int :=
  tallyGet (reactionTally msgs) e

/-- The top-10 reaction-emoji table (`most_common(10)`, line 276). -/
def reactionTable (msgs : List RawMessage) : List (Option String × Int) :=
  mostCommon 10 (reactionTally msgs)

/-- The `reaction_list` entries (lines 267-270): one `(user, emoji)` pair
per `recent` entry whose `from` is truthy. -/
def reactionUserPairs (msgs : List RawMessage) : List (String × Option String) :=
  msgs.flatMap (fun m =>
    (m.reactions.filter (fun r => r.type = some "emoji")).flatMap (fun r =>
      r.recent.filterMap (fun u =>
        match u.«from» with
        | some nm => if nm = "" then none else some (nm, r.emoji)
        | none => none)))

/-- Occurrences of `(user, emoji)` in `reaction_list` (the per-user,
per-emoji reaction-usage tally of the claim). -/
def userEmojiTally (msgs : List RawMessage) (u : String) (e : Option String) :
    Nat :=
  (reactionUserPairs msgs).count (u, e)

/-! ## Auxiliary definitions for the statements

Everything in this section is definitional material used by the theorem
statements: the sortedness predicate, the letter classes, the rule-list
reading of the classification policy, and concrete fixture documents. -/

/-- Sorted by count, descending (ties allowed). -/
def SortedDesc {α β : Type} [LinearOrder β] (l : List (α × β)) : Prop :=
  l.Pairwise (fun a b => b.2 ≤ a.2)

/-- The letters the regex character class keeps: `а`-`я` (U+0430..U+044F)
and `a`-`z`. -/
def isLetterChar (c : Char) : Bool :=
  decide ((0x430 ≤ c.toNat ∧ c.toNat ≤ 0x44F) ∨ (97 ≤ c.toNat ∧ c.toNat ≤ 122))

/-- Modelled from the spec: a "Cyrillic letter" — a letter of the Unicode
Cyrillic block U+0400..U+04FF (excluding the non-letter signs
U+0482..U+0489 of that block). Used only to compare the wording of the spec
against the character class of the code. -/
def isCyrillicLetter (c : Char) : Bool :=
  decide ((0x400 ≤ c.toNat ∧ c.toNat ≤ 0x4FF) ∧
    ¬(0x482 ≤ c.toNat ∧ c.toNat ≤ 0x489))

/-- Modelled from the spec: the classification policy of §4.3 step 3 as an
explicit ordered rule list, first match wins, default `text`. -/
def mtypeRules : List ((RawMessage → Bool) × MType) :=
  [ (fun m => m.media_type = some "voice_message", .audioVoice),
    (fun m => m.media_type = some "video_message", .video),
    (fun m => m.media_type = some "sticker", .sticker),
    (fun m => m.photo, .photo),
    (fun m => m.document, .file) ]

/-- First-match evaluation of the rule list. -/
def classifySpec (m : RawMessage) : MType :=
  match mtypeRules.find? (fun rule => rule.1 m) with
  | some rule => rule.2
  | none => .text

/-- A raw message with no optional fields set (fixture base). -/
def blankMsg : RawMessage :=
  { date := none, «from» := none, media_type := none, photo := false,
    document := false, duration_seconds := none, sticker_emoji := none,
    text := .str "", reactions := [] }

/-- Fixture: a plain text message on 2023-01-01. -/
def msgA : RawMessage :=
  { blankMsg with
    date := some "2023-01-01T10:00:00", «from» := some "A",
    text := .str "привет мир" }

/-- Fixture: a sticker message on 2023-01-03. -/
def msgB : RawMessage :=
  { blankMsg with
    date := some "2023-01-03T12:30:00",
    media_type := some "sticker", sticker_emoji := some "😎" }

/-- Fixture: a two-message document spanning three calendar days. -/
def docAB : TgData := ⟨some [msgA, msgB]⟩

/-- Fixture: a message carrying both a sticker `media_type` and a `photo`
field. -/
def stickerPhotoMsg : RawMessage :=
  { blankMsg with
    media_type := some "sticker", photo := true,
    sticker_emoji := some "😎" }

/-- Fixture: a message with one emoji reaction whose `count` field is absent
and whose `recent` list names three distinct users. -/
def reactMsg : RawMessage :=
  { blankMsg with
    date := some "2023-01-01T00:00:00",
    reactions := [⟨some "emoji", some "👍", none,
      [⟨some "A"⟩, ⟨some "B"⟩, ⟨some "C"⟩]⟩] }

/-- Fixture: as `reactMsg` but with `count = 5` present. -/
def reactMsg5 : RawMessage :=
  { blankMsg with
    date := some "2023-01-01T00:00:00",
    reactions := [⟨some "emoji", some "👍", some 5,
      [⟨some "A"⟩, ⟨some "B"⟩, ⟨some "C"⟩]⟩] }

/-- Fixture: a document whose `messages` key is absent. -/
def docNone : TgData := ⟨none⟩

/-- Fixture: the normalized row `msgB` produces (2023-01-03 has Gregorian
ordinal 738523). -/
def rowB : Row :=
  { date := 738523, hour := 12, type := .sticker, sender := none,
    duration := none, sticker_emoji := some "😎", text := "",
    text_length := 0 }

/-! ## Lemmas about the stable descending sort -/

theorem mem_insertDesc {α β : Type} [LinearOrder β] (x : α × β) :
    ∀ (l : List (α × β)) (z : α × β), z ∈ insertDesc x l ↔ z = x ∨ z ∈ l
  | [], z => by simp [insertDesc]
  | y :: ys, z => by
    simp only [insertDesc]
    split
    · simp [List.mem_cons]
    · simp only [List.mem_cons, mem_insertDesc x ys z]
      tauto

theorem perm_insertDesc {α β : Type} [LinearOrder β] (x : α × β) :
    ∀ l : List (α × β), List.Perm (insertDesc x l) (x :: l)
  | [] => List.Perm.refl _
  | y :: ys => by
    simp only [insertDesc]
    split
    · exact List.Perm.refl _
    · exact (List.Perm.cons y (perm_insertDesc x ys)).trans
        (List.Perm.swap x y ys)

theorem perm_sortDesc {α β : Type} [LinearOrder β] :
    ∀ l : List (α × β), List.Perm (sortDesc l) l
  | [] => List.Perm.refl _
  | x :: xs =>
    (perm_insertDesc x (sortDesc xs)).trans (List.Perm.cons x (perm_sortDesc xs))

theorem sortedDesc_insertDesc {α β : Type} [LinearOrder β] (x : α × β) :
    ∀ l : List (α × β), SortedDesc l → SortedDesc (insertDesc x l)
  | [], _ => List.pairwise_cons.mpr (by simp)
  | y :: ys, h => by
    rcases List.pairwise_cons.mp h with ⟨hy, hys⟩
    simp only [insertDesc]
    split
    next hle =>
      refine List.pairwise_cons.mpr ⟨?_, h⟩
      intro z hz
      rcases List.mem_cons.mp hz with rfl | hz'
      · exact hle
      · exact le_trans (hy z hz') hle
    next hle =>
      refine List.pairwise_cons.mpr ⟨?_, sortedDesc_insertDesc x ys hys⟩
      intro z hz
      rcases (mem_insertDesc x ys z).mp hz with rfl | hz'
      · exact le_of_lt (lt_of_not_le hle)
      · exact hy z hz'

theorem sortedDesc_sortDesc {α β : Type} [LinearOrder β] :
    ∀ l : List (α × β), SortedDesc (sortDesc l)
  | [] => List.Pairwise.nil
  | x :: xs => sortedDesc_insertDesc x (sortDesc xs) (sortedDesc_sortDesc xs)

/-- Stability of the insertion step: the entries with any fixed count keep
their relative order, the inserted entry coming first among its ties. -/
theorem filter_insertDesc {α β : Type} [LinearOrder β] (x : α × β)
    (l : List (α × β)) (k : β) :
    (insertDesc x l).filter (fun q => q.2 = k) =
      if x.2 = k then x :: l.filter (fun q => q.2 = k)
      else l.filter (fun q => q.2 = k) := by
  induction l with
  | nil => by_cases hx : x.2 = k <;> simp [insertDesc, List.filter, hx]
  | cons y ys ih =>
    simp only [insertDesc]
    split
    next hle =>
      by_cases hx : x.2 = k <;> simp [List.filter_cons, hx]
    next hle =>
      simp only [List.filter_cons]
      by_cases hy : y.2 = k
      · have hx : ¬ x.2 = k := fun hxk => hle (le_of_eq (hy.trans hxk.symm))
        simp [hy, hx, ih]
      · simp [hy, ih]

/-- Stability of the sort: for every count value, filtering the sorted list
and filtering the input give the same subsequence. -/
theorem filter_sortDesc {α β : Type} [LinearOrder β] :
    ∀ (l : List (α × β)) (k : β),
      (sortDesc l).filter (fun q => q.2 = k) = l.filter (fun q => q.2 = k)
  | [], _ => rfl
  | x :: xs, k => by
    simp only [sortDesc]
    rw [filter_insertDesc, filter_sortDesc xs k, List.filter_cons]
    by_cases hx : x.2 = k <;> simp [hx]

/-- Sorting an already descending-sorted list is the identity. -/
theorem sortDesc_eq_self {α β : Type} [LinearOrder β] :
    ∀ l : List (α × β), SortedDesc l → sortDesc l = l
  | [], _ => rfl
  | x :: xs, h => by
    rcases List.pairwise_cons.mp h with ⟨hx, hxs⟩
    simp only [sortDesc, sortDesc_eq_self xs hxs]
    cases xs with
    | nil => rfl
    | cons y ys => simp only [insertDesc, if_pos (hx y (List.mem_cons_self y ys))]

/-- The three top-N properties of `mostCommon`: at most `n` entries, counts
descending, and stability (the ties of every count value are a prefix of the
first-encountered-ordered ties of the item list). -/
theorem mostCommon_spec {α β : Type} [LinearOrder β] (n : Nat)
    (items : List (α × β)) :
    (mostCommon n items).length ≤ n ∧
    SortedDesc (mostCommon n items) ∧
    ∀ k : β, ∃ m : Nat,
      (mostCommon n items).filter (fun q => q.2 = k) =
        (items.filter (fun q => q.2 = k)).take m := by
  refine ⟨?_, ?_, ?_⟩
  · rw [mostCommon]
    simp only [List.length_take]
    omega
  · exact (sortedDesc_sortDesc items).sublist (List.take_sublist n _)
  · intro k
    refine ⟨(((sortDesc items).take n).filter (fun q => q.2 = k)).length, ?_⟩
    have hsplit : (sortDesc items).filter (fun q => q.2 = k) =
        ((sortDesc items).take n).filter (fun q => q.2 = k) ++
          ((sortDesc items).drop n).filter (fun q => q.2 = k) := by
      rw [← List.filter_append, List.take_append_drop]
    have := List.take_left (((sortDesc items).take n).filter (fun q => q.2 = k))
      (((sortDesc items).drop n).filter (fun q => q.2 = k))
    rw [mostCommon, ← filter_sortDesc items k, hsplit, this]

/-! ## Lemmas about `dedupFirst` and `counterItems` -/

theorem mem_dedupFirst {α : Type} [DecidableEq α] :
    ∀ (l : List α) (x : α), x ∈ dedupFirst l ↔ x ∈ l
  | [], x => Iff.rfl
  | y :: ys, x => by
    simp only [dedupFirst, List.mem_cons, List.mem_filter,
      mem_dedupFirst ys x, decide_eq_true_eq]
    by_cases hx : x = y
    · simp [hx]
    · simp [hx]

theorem nodup_dedupFirst {α : Type} [DecidableEq α] :
    ∀ l : List α, (dedupFirst l).Nodup
  | [] => List.Pairwise.nil
  | y :: ys => by
    refine List.nodup_cons.mpr ⟨?_, (nodup_dedupFirst ys).filter _⟩
    intro hmem
    have hcontra := (List.mem_filter.mp hmem).2
    simp at hcontra

theorem counterItems_map_fst {α : Type} [DecidableEq α] (ws : List α) :
    (counterItems ws).map Prod.fst = dedupFirst ws := by
  rw [counterItems, List.map_map]
  exact (List.map_congr_left fun a _ => rfl).trans (List.map_id _)

theorem mem_counterItems {α : Type} [DecidableEq α] {ws : List α}
    {p : α × Nat} : p ∈ counterItems ws ↔ p.1 ∈ ws ∧ p.2 = ws.count p.1 := by
  simp only [counterItems, List.mem_map, mem_dedupFirst]
  constructor
  · rintro ⟨w, hw, rfl⟩
    exact ⟨hw, rfl⟩
  · rintro ⟨h1, h2⟩
    exact ⟨p.1, h1, by rw [← h2]⟩

/-! ## Lemmas for the daily series -/

theorem foldl_min_le_init : ∀ (xs : List Nat) (a : Nat), xs.foldl Nat.min a ≤ a
  | [], a => Nat.le_refl a
  | x :: xs, a =>
    Nat.le_trans (foldl_min_le_init xs (Nat.min a x)) (Nat.min_le_left a x)

theorem foldl_min_le_mem :
    ∀ (xs : List Nat) (a x : Nat), x ∈ xs → xs.foldl Nat.min a ≤ x
  | y :: ys, a, x, h => by
    rcases List.mem_cons.mp h with rfl | h'
    · exact Nat.le_trans (foldl_min_le_init ys (Nat.min a x))
        (Nat.min_le_right a x)
    · exact foldl_min_le_mem ys (Nat.min a y) x h'

theorem init_le_foldl_max : ∀ (xs : List Nat) (a : Nat), a ≤ xs.foldl Nat.max a
  | [], a => Nat.le_refl a
  | x :: xs, a =>
    Nat.le_trans (Nat.le_max_left a x) (init_le_foldl_max xs (Nat.max a x))

theorem mem_le_foldl_max :
    ∀ (xs : List Nat) (a x : Nat), x ∈ xs → x ≤ xs.foldl Nat.max a
  | y :: ys, a, x, h => by
    rcases List.mem_cons.mp h with rfl | h'
    · exact Nat.le_trans (Nat.le_max_right a x)
        (init_le_foldl_max ys (Nat.max a x))
    · exact mem_le_foldl_max ys (Nat.max a y) x h'

theorem natsMin_le {l : List Nat} {x : Nat} (h : x ∈ l) : natsMin l ≤ x := by
  cases l with
  | nil => cases h
  | cons y ys =>
    rcases List.mem_cons.mp h with rfl | h'
    · exact foldl_min_le_init ys x
    · exact foldl_min_le_mem ys y x h'

theorem le_natsMax {l : List Nat} {x : Nat} (h : x ∈ l) : x ≤ natsMax l := by
  cases l with
  | nil => cases h
  | cons y ys =>
    rcases List.mem_cons.mp h with rfl | h'
    · exact init_le_foldl_max ys x
    · exact mem_le_foldl_max ys y x h'

/-- Membership in a step-1 range, in interval form. -/
theorem mem_range_one {s n m : Nat} :
    m ∈ List.range' s n ↔ s ≤ m ∧ m < s + n := by
  rw [List.mem_range']
  constructor
  · rintro ⟨i, hi, rfl⟩
    omega
  · intro h
    exact ⟨m - s, by omega, by omega⟩

theorem list_sum_map_add {γ : Type} (l : List γ) (f g : γ → Nat) :
    (l.map (fun x => f x + g x)).sum = (l.map f).sum + (l.map g).sum := by
  induction l with
  | nil => rfl
  | cons x xs ih =>
    simp only [List.map_cons, List.sum_cons, ih]
    omega

theorem sum_indicator_one {ds : List Nat} {x : Nat} (hnd : ds.Nodup)
    (hx : x ∈ ds) : (ds.map (fun d => if x = d then 1 else 0)).sum = 1 := by
  induction ds with
  | nil => cases hx
  | cons d ds ih =>
    rcases List.nodup_cons.mp hnd with ⟨hd, hnd'⟩
    rcases List.mem_cons.mp hx with rfl | h'
    · simp only [List.map_cons, List.sum_cons, if_pos rfl]
      have hz : (ds.map (fun d' => if x = d' then 1 else 0)).sum = 0 := by
        apply List.sum_eq_zero
        intro y hy
        rcases List.mem_map.mp hy with ⟨d', hd', rfl⟩
        have : x ≠ d' := fun he => hd (he ▸ hd')
        simp [this]
      rw [hz]
      simp
    · have hne : x ≠ d := fun he => hd (he ▸ h')
      simp only [List.map_cons, List.sum_cons, if_neg hne, ih hnd' h']

/-- The per-key group sizes over a duplicate-free key list covering every
row partition the row count. -/
theorem length_eq_sum_counts {R : Type} (key : R → Nat) :
    ∀ (rows : List R) (ds : List Nat), ds.Nodup → (∀ r ∈ rows, key r ∈ ds) →
      (ds.map (fun d => (rows.filter (fun r => key r = d)).length)).sum =
        rows.length
  | [], ds, _, _ => by simp
  | r :: rs, ds, hnd, hcov => by
    have hr : key r ∈ ds := hcov r (List.mem_cons_self r rs)
    have step : ∀ d : Nat,
        ((r :: rs).filter (fun r' => key r' = d)).length =
          (if key r = d then 1 else 0) +
            (rs.filter (fun r' => key r' = d)).length := by
      intro d
      by_cases h : key r = d
      · simp [List.filter_cons, h]
        omega
      · simp [List.filter_cons, h]
    calc (ds.map fun d => ((r :: rs).filter (fun r' => key r' = d)).length).sum
        = (ds.map fun d => (if key r = d then 1 else 0) +
            (rs.filter (fun r' => key r' = d)).length).sum := by
          exact congrArg List.sum (List.map_congr_left (fun d _ => step d))
      _ = (ds.map fun d => if key r = d then 1 else 0).sum +
            (ds.map fun d => (rs.filter (fun r' => key r' = d)).length).sum :=
          list_sum_map_add ds _ _
      _ = 1 + rs.length := by
          rw [sum_indicator_one hnd hr,
            length_eq_sum_counts key rs ds hnd
              (fun r' h' => hcov r' (List.mem_cons_of_mem r h'))]
      _ = (r :: rs).length := by simp [Nat.add_comm]

/-! ## Lemmas about the character classes and the filter -/

theorem keepChar_of_letter {c : Char} (h : isLetterChar c = true) :
    keepChar c = true := by
  simp only [isLetterChar, decide_eq_true_eq] at h
  simp only [keepChar, Bool.or_eq_true, decide_eq_true_eq]
  exact Or.inl h

theorem not_space_of_letter {c : Char} (h : isLetterChar c = true) :
    pyIsSpace c = false := by
  simp only [isLetterChar, decide_eq_true_eq] at h
  simp only [pyIsSpace, decide_eq_false_iff_not]
  omega

theorem letter_of_keep_not_space {c : Char} (hk : keepChar c = true)
    (hs : pyIsSpace c = false) : isLetterChar c = true := by
  simp only [keepChar, Bool.or_eq_true] at hk
  rcases hk with h | h
  · simpa [isLetterChar] using h
  · rw [hs] at h
    cases h

theorem keepChar_space : keepChar ' ' = true := by decide

theorem pyLowerChar_fixed {c : Char} (h : isLetterChar c = true ∨ c = ' ') :
    pyLowerChar c = c := by
  rcases h with h | rfl
  · simp only [isLetterChar, decide_eq_true_eq] at h
    simp only [pyLowerChar]
    split_ifs with h1 h2 h3
    · exact absurd h1 (by omega)
    · exact absurd h2 (by omega)
    · exact absurd h3 (by omega)
    · rfl
  · decide

theorem mem_reSubChars :
    ∀ {l : List Char} {c : Char}, c ∈ reSubChars l → keepChar c = true ∧ c ∈ l
  | d :: ds, c, h => by
    simp only [reSubChars] at h
    split at h
    next hk =>
      rcases List.mem_cons.mp h with rfl | h'
      · exact ⟨hk, List.mem_cons_self c ds⟩
      · exact ⟨(mem_reSubChars h').1, List.mem_cons_of_mem d (mem_reSubChars h').2⟩
    next hk =>
      exact ⟨(mem_reSubChars h).1, List.mem_cons_of_mem d (mem_reSubChars h).2⟩

theorem count_reSubChars {c : Char} (hc : keepChar c = true) :
    ∀ l : List Char, (reSubChars l).count c = l.count c
  | [] => rfl
  | d :: ds => by
    simp only [reSubChars]
    split
    next hk =>
      by_cases hdc : d = c
      · subst hdc
        simp [List.count_cons_self, count_reSubChars hc ds]
      · rw [List.count_cons_of_ne (fun he => hdc he.symm),
          List.count_cons_of_ne (fun he => hdc he.symm),
          count_reSubChars hc ds]
    next hk =>
      have hne : c ≠ d := fun he => hk (he ▸ hc)
      rw [List.count_cons_of_ne hne, count_reSubChars hc ds]

theorem reSubChars_eq_self :
    ∀ {l : List Char}, (∀ c ∈ l, keepChar c = true) → reSubChars l = l
  | [], _ => rfl
  | d :: ds, h => by
    simp only [reSubChars, if_pos (h d (List.mem_cons_self d ds))]
    rw [reSubChars_eq_self (fun c hc => h c (List.mem_cons_of_mem d hc))]

/-! ## Lemmas about the classification chain and the normalizer -/

theorem classifyFields_duration (m : RawMessage)
    (h1 : (classifyFields m).1 ≠ .audioVoice)
    (h2 : (classifyFields m).1 ≠ .video) :
    (classifyFields m).2.1 = none := by
  unfold classifyFields at *
  split_ifs at * <;> simp_all

theorem classifyFields_sticker (m : RawMessage)
    (h : (classifyFields m).1 ≠ .sticker) :
    (classifyFields m).2.2 = none := by
  unfold classifyFields at *
  split_ifs at * <;> simp_all

/-- Shape of every row the normalizer emits: the classification triple is
copied into the row, and a non-text row keeps the default empty text. -/
theorem normalizeMsg_shape {m : RawMessage} {r : Row}
    (h : normalizeMsg m = some r) :
    r.type = (classifyFields m).1 ∧ r.duration = (classifyFields m).2.1 ∧
    r.sticker_emoji = (classifyFields m).2.2 ∧
    ((classifyFields m).1 ≠ .text → r.text = "" ∧ r.text_length = 0) := by
  unfold normalizeMsg at h
  rcases hd : m.date with _ | ds
  · rw [hd] at h
    cases h
  · rw [hd] at h
    dsimp only at h
    rcases hp : fromisoformat ds with _ | dt
    · rw [hp] at h
      cases h
    · rw [hp] at h
      dsimp only at h
      by_cases ht : (classifyFields m).1 = MType.text
      · rw [if_pos ht] at h
        injection h with h
        subst h
        exact ⟨rfl, rfl, rfl, fun hnt => absurd ht hnt⟩
      · rw [if_neg ht] at h
        injection h with h
        subst h
        exact ⟨rfl, rfl, rfl, fun _ => ⟨rfl, rfl⟩⟩

/-- Extraction of the components of a successful `process_json` run. -/
theorem process_json_eq {d : TgData} {dc : List (Nat × Nat)} {c : String}
    {rows : List Row} {em : List Char}
    (h : process_json d = some (dc, c, rows, em)) :
    rows = normalizedRows (d.messages.getD []) ∧ rows ≠ [] ∧
    dc = dailyCountsOf rows ∧ c = corpusOf rows ∧ em = emojisOf rows := by
  simp only [process_json] at h
  split at h
  · cases h
  next hne =>
    simp only [Option.some.injEq, Prod.mk.injEq] at h
    obtain ⟨h1, h2, h3, h4⟩ := h
    subst h1
    subst h2
    subst h3
    subst h4
    refine ⟨rfl, ?_, rfl, rfl, rfl⟩
    simpa using hne

/-! ## Lemmas about the whitespace split and the join -/

theorem pySplitAux_ne_nil :
    ∀ (l acc : List Char), ∀ w ∈ pySplitAux l acc, w ≠ []
  | [], acc, w, hw => by
    simp only [pySplitAux] at hw
    split at hw
    · cases hw
    next hacc =>
      rcases List.mem_singleton.mp hw with rfl
      intro hrev
      rw [List.reverse_eq_nil_iff] at hrev
      subst hrev
      simp at hacc
  | c :: cs, acc, w, hw => by
    simp only [pySplitAux] at hw
    split at hw
    · split at hw
      · exact pySplitAux_ne_nil cs [] w hw
      next hacc =>
        rcases List.mem_cons.mp hw with rfl | hw'
        · intro hrev
          rw [List.reverse_eq_nil_iff] at hrev
          subst hrev
          simp at hacc
        · exact pySplitAux_ne_nil cs [] w hw'
    · exact pySplitAux_ne_nil cs (c :: acc) w hw

theorem pySplitAux_mem_chars :
    ∀ (l acc : List Char), (∀ c ∈ acc, pyIsSpace c = false) →
      ∀ w ∈ pySplitAux l acc, ∀ c ∈ w, (c ∈ l ∨ c ∈ acc) ∧ pyIsSpace c = false
  | [], acc, hacc, w, hw, c, hc => by
    simp only [pySplitAux] at hw
    split at hw
    · cases hw
    · rcases List.mem_singleton.mp hw with rfl
      have hca : c ∈ acc := by simpa using hc
      exact ⟨Or.inr hca, hacc c hca⟩
  | d :: ds, acc, hacc, w, hw, c, hc => by
    simp only [pySplitAux] at hw
    split at hw
    next hsp =>
      split at hw
      next =>
        rcases pySplitAux_mem_chars ds [] (by simp) w hw c hc with ⟨h1 | h2, hns⟩
        · exact ⟨Or.inl (List.mem_cons_of_mem d h1), hns⟩
        · cases h2
      next hacc0 =>
        rcases List.mem_cons.mp hw with rfl | hw'
        · have hca : c ∈ acc := by simpa using hc
          exact ⟨Or.inr hca, hacc c hca⟩
        · rcases pySplitAux_mem_chars ds [] (by simp) w hw' c hc
            with ⟨h1 | h2, hns⟩
          · exact ⟨Or.inl (List.mem_cons_of_mem d h1), hns⟩
          · cases h2
    next hsp =>
      have hd : pyIsSpace d = false := by
        revert hsp
        cases pyIsSpace d <;> simp
      have hacc' : ∀ x ∈ d :: acc, pyIsSpace x = false := by
        intro x hx
        rcases List.mem_cons.mp hx with rfl | hx'
        · exact hd
        · exact hacc x hx'
      rcases pySplitAux_mem_chars ds (d :: acc) hacc' w hw c hc
        with ⟨h1 | h2, hns⟩
      · exact ⟨Or.inl (List.mem_cons_of_mem d h1), hns⟩
      · rcases List.mem_cons.mp h2 with rfl | h3
        · exact ⟨Or.inl (List.mem_cons_self c ds), hns⟩
        · exact ⟨Or.inr h3, hns⟩

theorem pySplitAux_append :
    ∀ (w rest acc : List Char), (∀ c ∈ w, pyIsSpace c = false) →
      pySplitAux (w ++ rest) acc = pySplitAux rest (w.reverse ++ acc)
  | [], rest, acc, _ => by simp
  | c :: cs, rest, acc, h => by
    have hc : pyIsSpace c = false := h c (List.mem_cons_self c cs)
    simp only [List.cons_append, pySplitAux, hc, Bool.false_eq_true, if_false,
      List.append_eq]
    rw [pySplitAux_append cs rest (c :: acc)
      (fun x hx => h x (List.mem_cons_of_mem c hx))]
    simp [List.reverse_cons, List.append_assoc]

theorem mem_joinWords :
    ∀ (M : List (List Char)) (c : Char), c ∈ joinWords M →
      (∃ w ∈ M, c ∈ w) ∨ c = ' '
  | [], _, h => by cases h
  | [w], c, h => Or.inl ⟨w, List.mem_singleton.mpr rfl, by simpa [joinWords] using h⟩
  | w :: v :: vs, c, h => by
    simp only [joinWords] at h
    rcases List.mem_append.mp h with h1 | h2
    · exact Or.inl ⟨w, List.mem_cons_self w (v :: vs), h1⟩
    · rcases List.mem_cons.mp h2 with rfl | h3
      · exact Or.inr rfl
      · rcases mem_joinWords (v :: vs) c h3 with ⟨u, hu, hcu⟩ | rfl
        · exact Or.inl ⟨u, List.mem_cons_of_mem w hu, hcu⟩
        · exact Or.inr rfl

/-- Splitting the space-join of nonempty space-free words recovers the
words. -/
theorem pySplit_joinWords :
    ∀ M : List (List Char),
      (∀ w ∈ M, w ≠ [] ∧ ∀ c ∈ w, pyIsSpace c = false) →
      pySplit (joinWords M) = M
  | [], _ => rfl
  | [w], h => by
    obtain ⟨hne, hns⟩ := h w (List.mem_singleton.mpr rfl)
    show pySplitAux (joinWords [w]) [] = [w]
    have hjw : joinWords [w] = w ++ [] := by simp [joinWords]
    rw [hjw, pySplitAux_append w [] [] hns]
    simp [pySplitAux, List.isEmpty_iff, hne]
  | w :: v :: vs, h => by
    obtain ⟨hne, hns⟩ := h w (List.mem_cons_self w (v :: vs))
    show pySplitAux (joinWords (w :: v :: vs)) [] = w :: v :: vs
    have hjw : joinWords (w :: v :: vs) = w ++ ' ' :: joinWords (v :: vs) := rfl
    rw [hjw, pySplitAux_append w (' ' :: joinWords (v :: vs)) [] hns]
    have hsp : pyIsSpace ' ' = true := by decide
    have hrevne : w.reverse.isEmpty = false := by
      simp [List.isEmpty_iff, hne]
    have hrec := pySplit_joinWords (v :: vs)
      (fun u hu => h u (List.mem_cons_of_mem w hu))
    rw [pySplit] at hrec
    simp only [pySplitAux, hsp, if_true, List.append_nil, hrevne,
      Bool.false_eq_true, if_false, List.reverse_reverse, hrec]

/-! ## Lemmas about flattened replicated corpora -/

theorem dedupFirst_replicate_append {α : Type} [DecidableEq α] (w : α) :
    ∀ (c : Nat), 1 ≤ c → ∀ l : List α,
      dedupFirst (List.replicate c w ++ l) = dedupFirst (w :: l)
  | 0, hc, _ => absurd hc (by omega)
  | 1, _, l => rfl
  | c + 2, _, l => by
    have ih := dedupFirst_replicate_append w (c + 1) (by omega) l
    have h1 : dedupFirst (List.replicate (c + 2) w ++ l) =
        w :: (dedupFirst (List.replicate (c + 1) w ++ l)).filter
          (fun y => y ≠ w) := rfl
    rw [h1, ih]
    show w :: (w :: (dedupFirst l).filter (fun y => y ≠ w)).filter
      (fun y => y ≠ w) = w :: (dedupFirst l).filter (fun y => y ≠ w)
    congr 1
    rw [List.filter_cons]
    simp [List.filter_filter]

theorem count_flatMap_replicate_zero {α : Type} [DecidableEq α] (w : α) :
    ∀ l : List (α × Nat), w ∉ l.map Prod.fst →
      (l.flatMap (fun q => List.replicate q.2 q.1)).count w = 0
  | [], _ => rfl
  | q :: qs, h => by
    simp only [List.map_cons, List.mem_cons] at h
    push_neg at h
    simp only [List.flatMap_cons, List.count_append]
    rw [List.count_replicate, if_neg (by simpa using fun he => h.1 he.symm),
      count_flatMap_replicate_zero w qs h.2]

theorem count_flatMap_replicate {α : Type} [DecidableEq α] :
    ∀ l : List (α × Nat), (l.map Prod.fst).Nodup → ∀ p ∈ l,
      (l.flatMap (fun q => List.replicate q.2 q.1)).count p.1 = p.2
  | q :: qs, hnd, p, hp => by
    simp only [List.map_cons, List.nodup_cons] at hnd
    simp only [List.flatMap_cons, List.count_append]
    rcases List.mem_cons.mp hp with rfl | hp'
    · rw [List.count_replicate_self,
        count_flatMap_replicate_zero p.1 qs hnd.1]
      omega
    · have hne : ¬ q.1 = p.1 := by
        intro he
        exact hnd.1 (he ▸ List.mem_map.mpr ⟨p, hp', rfl⟩)
      rw [List.count_replicate, if_neg (by simpa using hne), Nat.zero_add]
      exact count_flatMap_replicate qs hnd.2 p hp'

theorem dedupFirst_flatMap_replicate {α : Type} [DecidableEq α] :
    ∀ l : List (α × Nat), (l.map Prod.fst).Nodup → (∀ p ∈ l, 1 ≤ p.2) →
      dedupFirst (l.flatMap (fun q => List.replicate q.2 q.1)) = l.map Prod.fst
  | [], _, _ => rfl
  | q :: qs, hnd, hpos => by
    simp only [List.map_cons, List.nodup_cons] at hnd
    simp only [List.flatMap_cons]
    rw [dedupFirst_replicate_append q.1 q.2 (hpos q (List.mem_cons_self q qs)) _]
    simp only [dedupFirst]
    rw [dedupFirst_flatMap_replicate qs hnd.2
      (fun p hp => hpos p (List.mem_cons_of_mem q hp))]
    have hfil : ∀ a ∈ qs.map Prod.fst, decide (a ≠ q.1) = true := by
      intro a ha
      simp only [decide_eq_true_eq]
      intro he
      exact hnd.1 (he ▸ ha)
    rw [List.filter_eq_self.mpr hfil, List.map_cons]

/-! ## Membership and key-distinctness of `mostCommon` results -/

theorem mem_mostCommon {α β : Type} [LinearOrder β] {n : Nat}
    {items : List (α × β)} {p : α × β} (h : p ∈ mostCommon n items) :
    p ∈ items :=
  (perm_sortDesc items).mem_iff.mp ((List.take_sublist n _).subset h)

theorem nodup_fst_mostCommon {α β : Type} [DecidableEq α] [LinearOrder β]
    {items : List (α × β)} (hnd : (items.map Prod.fst).Nodup) (n : Nat) :
    ((mostCommon n items).map Prod.fst).Nodup := by
  have hperm : List.Perm ((sortDesc items).map Prod.fst)
      (items.map Prod.fst) := (perm_sortDesc items).map Prod.fst
  exact ((List.take_sublist n (sortDesc items)).map Prod.fst).nodup
    (hperm.nodup_iff.mpr hnd)

/-! ## Lemmas about the word ranking -/

/-- Every token produced by the lowercase-strip-split stage is a nonempty
word of `а`-`я`/`a`-`z` letters. -/
theorem gwfWords_spec {text : String} {w : String} (h : w ∈ gwfWords text) :
    w.data ≠ [] ∧ ∀ ch ∈ w.data, isLetterChar ch = true := by
  simp only [gwfWords, List.mem_map] at h
  obtain ⟨wc, hwc, rfl⟩ := h
  rw [pySplit] at hwc
  constructor
  · simpa using pySplitAux_ne_nil _ [] wc hwc
  · intro ch hch
    have hc2 : ch ∈ wc := by simpa using hch
    rcases pySplitAux_mem_chars _ [] (by simp) wc hwc ch hc2
      with ⟨h1 | h2, hns⟩
    · exact letter_of_keep_not_space (mem_reSubChars h1).1 hns
    · cases h2

theorem gwfKept_spec {text : String} {sw : Option (List String)} {w : String}
    (h : w ∈ gwfKept text sw) : w ∈ gwfWords text ∧ w ∉ sw.getD [] := by
  simp only [gwfKept, List.mem_filter, decide_eq_true_eq] at h
  exact h

/-- Every entry of the ranking is a kept token with its exact occurrence
count. -/
theorem get_word_frequency_mem {text : String} {sw : Option (List String)}
    {n : Nat} {p : String × Nat} (h : p ∈ get_word_frequency text sw n) :
    p.1 ∈ gwfKept text sw ∧ p.2 = (gwfKept text sw).count p.1 :=
  mem_counterItems.mp (mem_mostCommon h)

/-- Core of the idempotency claim: ranking the space-join of any
duplicate-free, descending-sorted, positively counted list of
letter-only, non-stopword words (each repeated its count) reproduces the
list exactly. -/
theorem rank_of_replicated (sw : List String) (n : Nat)
    (out : List (String × Nat))
    (hnd : (out.map Prod.fst).Nodup)
    (hsorted : SortedDesc out)
    (hpos : ∀ p ∈ out, 1 ≤ p.2)
    (hlen : out.length ≤ n)
    (hchars : ∀ p ∈ out, p.1.data ≠ [] ∧ ∀ ch ∈ p.1.data, isLetterChar ch = true)
    (hsw : ∀ p ∈ out, p.1 ∉ sw) :
    get_word_frequency
      (pyJoin (out.flatMap (fun p => List.replicate p.2 p.1))) (some sw) n =
      out := by
  set L := out.flatMap (fun p => List.replicate p.2 p.1) with hL
  have hLmem : ∀ w ∈ L, ∃ p ∈ out, w = p.1 := by
    intro w hw
    rw [hL] at hw
    rcases List.mem_flatMap.mp hw with ⟨p, hp, hrep⟩
    exact ⟨p, hp, List.eq_of_mem_replicate hrep⟩
  have hchL : ∀ ch ∈ joinWords (L.map String.data),
      isLetterChar ch = true ∨ ch = ' ' := by
    intro ch hc
    rcases mem_joinWords _ ch hc with ⟨wd, hwd, hchwd⟩ | rfl
    · rcases List.mem_map.mp hwd with ⟨w, hwL, rfl⟩
      rcases hLmem w hwL with ⟨p, hp, rfl⟩
      exact Or.inl ((hchars p hp).2 ch hchwd)
    · exact Or.inr rfl
  have hlower : (pyLower (pyJoin L)).data = joinWords (L.map String.data) := by
    show (joinWords (L.map String.data)).map pyLowerChar =
      joinWords (L.map String.data)
    rw [List.map_congr_left (fun ch hc => pyLowerChar_fixed (hchL ch hc))]
    exact List.map_id _
  have hresub : reSubChars (pyLower (pyJoin L)).data =
      joinWords (L.map String.data) := by
    rw [hlower]
    refine reSubChars_eq_self (fun ch hc => ?_)
    rcases hchL ch hc with hl | rfl
    · exact keepChar_of_letter hl
    · exact keepChar_space
  have hsplit : pySplit (joinWords (L.map String.data)) = L.map String.data := by
    refine pySplit_joinWords _ ?_
    intro wd hwd
    rcases List.mem_map.mp hwd with ⟨w, hwL, rfl⟩
    rcases hLmem w hwL with ⟨p, hp, rfl⟩
    exact ⟨by simpa using (hchars p hp).1,
      fun ch hch => not_space_of_letter ((hchars p hp).2 ch hch)⟩
  have hwords : gwfWords (pyJoin L) = L := by
    rw [gwfWords, hresub, hsplit, List.map_map]
    exact (List.map_congr_left fun w _ => rfl).trans (List.map_id _)
  have hkept : gwfKept (pyJoin L) (some sw) = L := by
    rw [gwfKept, hwords]
    refine List.filter_eq_self.mpr ?_
    intro w hwL
    rcases hLmem w hwL with ⟨p, hp, rfl⟩
    simpa using hsw p hp
  have hpt : ∀ p ∈ out, (p.1, L.count p.1) = p := by
    intro p hp
    rw [hL, count_flatMap_replicate out hnd p hp]
  have hitems : counterItems L = out := by
    rw [counterItems, hL, dedupFirst_flatMap_replicate out hnd hpos, ← hL,
      List.map_map]
    exact (List.map_congr_left fun p hp => hpt p hp).trans (List.map_id _)
  show mostCommon n (counterItems (gwfKept (pyJoin L) (some sw))) = out
  rw [hkept, hitems, mostCommon, sortDesc_eq_self out hsorted,
    List.take_of_length_le hlen]

/-! ## The claims -/

/-- C4: sender resolution maps the `from` values `""`, `"   "`, `"Unknown"`,
`"UNKNOWN"` and an absent `from` all to `none` — never to an empty string —
and maps `"Alice"` to `"Alice"`. -/
theorem C4_sender_resolution :
    resolveSender none = none ∧
    resolveSender (some "") = none ∧
    resolveSender (some "   ") = none ∧
    resolveSender (some "Unknown") = none ∧
    resolveSender (some "UNKNOWN") = none ∧
    resolveSender (some "Alice") = some "Alice" ∧
    ∀ s v, resolveSender s = some v → v ≠ "" := by
  refine ⟨by decide, by decide, by decide, by decide, by decide, by decide, ?_⟩
  intro s v h
  rcases s with _ | w
  · cases h
  · simp only [resolveSender] at h
    split at h
    · cases h
    next hcond =>
      injection h with h
      subst h
      push_neg at hcond
      exact hcond.1

/-- Witness for C4: the retained sender `"Alice"` is not the empty string. -/
theorem C4_sender_resolution_witness :
    resolveSender (some "Alice") = some "Alice" ∧ ("Alice" : String) ≠ "" :=
  ⟨by decide,
    C4_sender_resolution.2.2.2.2.2.2 (some "Alice") "Alice" (by decide)⟩

/-- C10: sender resolution does not trim before the case-insensitive
comparison with "unknown" and does not trim a retained sender: `" Unknown "`
resolves to the string `" Unknown "`, and every retained sender is returned
verbatim. -/
theorem C10_sender_untrimmed :
    resolveSender (some " Unknown ") = some " Unknown " ∧
    ∀ v, resolveSender (some v) = none ∨ resolveSender (some v) = some v := by
  refine ⟨by decide, ?_⟩
  intro v
  simp only [resolveSender]
  split
  · exact Or.inl rfl
  · exact Or.inr rfl

/-- C3: the message-type classification is the total deterministic
first-match evaluation of the fixed precedence rule list — in particular a
record with both `media_type = "sticker"` and a `photo` field classifies as
sticker. -/
theorem C3_classification (m : RawMessage) :
    classify m = classifySpec m ∧
    (m.media_type = some "sticker" → m.photo = true → classify m = .sticker) := by
  constructor
  · unfold classify classifyFields classifySpec mtypeRules
    by_cases h1 : m.media_type = some "voice_message" <;>
    by_cases h2 : m.media_type = some "video_message" <;>
    by_cases h3 : m.media_type = some "sticker" <;>
    by_cases h4 : m.photo = true <;>
    by_cases h5 : m.document = true <;>
    simp_all [List.find?]
  · intro hs hp
    simp [classify, classifyFields, hs]

/-- Witness for C3: a concrete record with both a sticker `media_type` and a
`photo` field classifies as sticker. -/
theorem C3_classification_witness :
    stickerPhotoMsg.media_type = some "sticker" ∧
    stickerPhotoMsg.photo = true ∧
    classify stickerPhotoMsg = .sticker :=
  ⟨rfl, rfl, (C3_classification stickerPhotoMsg).2 rfl rfl⟩

/-- C9: every row `process_json` emits has empty text (and zero length)
unless it is text-typed, no duration unless voice- or video-typed, and no
sticker emoji unless sticker-typed. -/
theorem C9_row_invariants (d : TgData) (dc : List (Nat × Nat)) (c : String)
    (rows : List Row) (em : List Char)
    (h : process_json d = some (dc, c, rows, em)) :
    ∀ r ∈ rows,
      (r.type ≠ .text → r.text = "" ∧ r.text_length = 0) ∧
      ((r.type ≠ .audioVoice ∧ r.type ≠ .video) → r.duration = none) ∧
      (r.type ≠ .sticker → r.sticker_emoji = none) := by
  obtain ⟨hrows, -, -, -, -⟩ := process_json_eq h
  subst hrows
  intro r hr
  simp only [normalizedRows] at hr
  rcases List.mem_filterMap.mp hr with ⟨m, -, hm⟩
  obtain ⟨hty, hdur, hse, htext⟩ := normalizeMsg_shape hm
  refine ⟨?_, ?_, ?_⟩
  · intro hnt
    exact htext (fun he => hnt (hty.trans he))
  · rintro ⟨hna, hnv⟩
    rw [hdur]
    exact classifyFields_duration m (fun he => hna (hty.trans he))
      (fun he => hnv (hty.trans he))
  · intro hns
    rw [hse]
    exact classifyFields_sticker m (fun he => hns (hty.trans he))

/-- Witness for C9 at the concrete sticker row of `docAB`. -/
theorem C9_row_invariants_witness :
    (rowB.type ≠ .text → rowB.text = "" ∧ rowB.text_length = 0) ∧
    ((rowB.type ≠ .audioVoice ∧ rowB.type ≠ .video) → rowB.duration = none) ∧
    (rowB.type ≠ .sticker → rowB.sticker_emoji = none) :=
  C9_row_invariants docAB _ _ _ _ rfl rowB (by decide)

/-- C6: an unparseable upload reports a parse error and produces nothing; a
document whose `messages` key is absent, or whose messages yield zero
normalizable rows, makes `process_json` return no artifacts (`None` in every
component, modelled by `none`) and the pipeline report the distinct
no-usable-data outcome; neither condition raises. -/
theorem C6_error_handling :
    (∀ u : Unit, runPipeline (Except.error u) = PipelineResult.parseError) ∧
    (∀ d : TgData, d.messages = none →
      process_json d = none ∧
      runPipeline (Except.ok d) = PipelineResult.noUsableData) ∧
    (∀ d : TgData, normalizedRows (d.messages.getD []) = [] →
      process_json d = none ∧
      runPipeline (Except.ok d) = PipelineResult.noUsableData) := by
  have key : ∀ d : TgData, normalizedRows (d.messages.getD []) = [] →
      process_json d = none ∧
      runPipeline (Except.ok d) = PipelineResult.noUsableData := by
    intro d h0
    have hp : process_json d = none := by
      simp [process_json, h0]
    exact ⟨hp, by simp [runPipeline, hp]⟩
  refine ⟨fun u => rfl, ?_, key⟩
  intro d hd
  exact key d (by rw [hd]; rfl)

/-- Witness for C6 at a failed parse and at a document with no `messages`
key. -/
theorem C6_error_handling_witness :
    runPipeline (Except.error ()) = PipelineResult.parseError ∧
    docNone.messages = none ∧
    process_json docNone = none ∧
    runPipeline (Except.ok docNone) = PipelineResult.noUsableData :=
  ⟨C6_error_handling.1 (), rfl, (C6_error_handling.2.1 docNone rfl).1,
    (C6_error_handling.2.1 docNone rfl).2⟩

/-- C5 counterexample: one emoji-kind reaction with three distinct recent
users but an absent `count` field gives per-user tallies of 1 but a
per-emoji total of 0, refuting the claimed unconditional total of at
least 3. -/
theorem C5_counterexample :
    userEmojiTally [reactMsg] "A" (some "👍") = 1 ∧
    userEmojiTally [reactMsg] "B" (some "👍") = 1 ∧
    userEmojiTally [reactMsg] "C" (some "👍") = 1 ∧
    reactionEmojiTotal [reactMsg] (some "👍") = 0 ∧
    ¬ (3 ≤ reactionEmojiTotal [reactMsg] (some "👍")) := by
  decide

/-- C5 (amended): for a message whose reactions consist of one emoji-kind
entry whose `recent` list holds three entries for its emoji from three
distinct truthy users, the tally records a per-user count of 1 for each of
those users for that emoji, and the per-emoji total equals the cumulative
`count` field of the entry (`r.get("count", 0)`) — not unconditionally at
least 3. -/
theorem C5_reaction_tally (m : RawMessage) (r : Reaction) (u1 u2 u3 : String)
    (hr : m.reactions = [r]) (ht : r.type = some "emoji")
    (hrec : r.recent = [⟨some u1⟩, ⟨some u2⟩, ⟨some u3⟩])
    (h1 : u1 ≠ "") (h2 : u2 ≠ "") (h3 : u3 ≠ "")
    (h12 : u1 ≠ u2) (h13 : u1 ≠ u3) (h23 : u2 ≠ u3) :
    userEmojiTally [m] u1 r.emoji = 1 ∧
    userEmojiTally [m] u2 r.emoji = 1 ∧
    userEmojiTally [m] u3 r.emoji = 1 ∧
    reactionEmojiTotal [m] r.emoji = r.count.getD 0 := by
  have hpairs : reactionUserPairs [m] =
      [(u1, r.emoji), (u2, r.emoji), (u3, r.emoji)] := by
    simp [reactionUserPairs, hr, ht, hrec, h1, h2, h3]
  have htot : reactionCountPairs [m] = [(r.emoji, r.count.getD 0)] := by
    simp [reactionCountPairs, hr, ht]
  refine ⟨?_, ?_, ?_, ?_⟩
  · rw [userEmojiTally, hpairs]
    simp [List.count_cons, Prod.mk.injEq, h12, h13]
  · rw [userEmojiTally, hpairs]
    simp [List.count_cons, Prod.mk.injEq, h12.symm, h23]
  · rw [userEmojiTally, hpairs]
    simp [List.count_cons, Prod.mk.injEq, h13.symm, h23.symm]
  · rw [reactionEmojiTotal, reactionTally, htot]
    simp [tallyFold, tallyGet, List.find?]

/-- Witness for C5 with a present `count = 5` field. -/
theorem C5_reaction_tally_witness :
    userEmojiTally [reactMsg5] "A" (some "👍") = 1 ∧
    userEmojiTally [reactMsg5] "B" (some "👍") = 1 ∧
    userEmojiTally [reactMsg5] "C" (some "👍") = 1 ∧
    reactionEmojiTotal [reactMsg5] (some "👍") = (some (5 : Int)).getD 0 :=
  C5_reaction_tally reactMsg5
    ⟨some "emoji", some "👍", some 5, [⟨some "A"⟩, ⟨some "B"⟩, ⟨some "C"⟩]⟩
    "A" "B" "C" rfl rfl rfl (by decide) (by decide) (by decide) (by decide)
    (by decide) (by decide)

/-- C1: for every document yielding at least one normalizable row, the daily
series has exactly one entry for every calendar day between the earliest and
the latest row date inclusive (count 1 inside the range, 0 outside — hence
no gaps and no duplicates), is ordered by date strictly ascending, and its
counts sum to the number of normalized rows. -/
theorem C1_daily_series (d : TgData) (dc : List (Nat × Nat)) (c : String)
    (rows : List Row) (em : List Char)
    (h : process_json d = some (dc, c, rows, em)) :
    (∀ day : Nat, (dc.map Prod.fst).count day =
      (if natsMin (rows.map (fun r => r.date)) ≤ day ∧
          day ≤ natsMax (rows.map (fun r => r.date)) then 1 else 0)) ∧
    List.Chain' (· < ·) (dc.map Prod.fst) ∧
    (dc.map Prod.snd).sum = rows.length := by
  obtain ⟨-, hne, hdc, -, -⟩ := process_json_eq h
  subst hdc
  have hmapfst : (dailyCountsOf rows).map Prod.fst =
      List.range' (natsMin (rows.map (fun r => r.date)))
        (natsMax (rows.map (fun r => r.date)) + 1 -
          natsMin (rows.map (fun r => r.date))) := by
    simp only [dailyCountsOf, List.map_map]
    exact (List.map_congr_left fun a _ => rfl).trans (List.map_id _)
  have hlohi : natsMin (rows.map (fun r => r.date)) ≤
      natsMax (rows.map (fun r => r.date)) := by
    rcases rows with _ | ⟨r, rs⟩
    · exact absurd rfl hne
    · have h1 : natsMin ((r :: rs).map (fun r => r.date)) ≤ r.date :=
        natsMin_le (by simp)
      have h2 : r.date ≤ natsMax ((r :: rs).map (fun r => r.date)) :=
        le_natsMax (by simp)
      omega
  have hmem : ∀ day : Nat,
      day ∈ List.range' (natsMin (rows.map (fun r => r.date)))
          (natsMax (rows.map (fun r => r.date)) + 1 -
            natsMin (rows.map (fun r => r.date))) ↔
        (natsMin (rows.map (fun r => r.date)) ≤ day ∧
          day ≤ natsMax (rows.map (fun r => r.date))) := by
    intro day
    rw [mem_range_one]
    omega
  have hnd : (List.range' (natsMin (rows.map (fun r => r.date)))
      (natsMax (rows.map (fun r => r.date)) + 1 -
        natsMin (rows.map (fun r => r.date)))).Nodup :=
    List.nodup_range' _ _
  refine ⟨?_, ?_, ?_⟩
  · intro day
    rw [hmapfst]
    by_cases hd : natsMin (rows.map (fun r => r.date)) ≤ day ∧
        day ≤ natsMax (rows.map (fun r => r.date))
    · rw [if_pos hd]
      exact List.count_eq_one_of_mem hnd ((hmem day).mpr hd)
    · rw [if_neg hd]
      exact List.count_eq_zero_of_not_mem (fun hm => hd ((hmem day).mp hm))
  · rw [hmapfst]
    exact (List.pairwise_lt_range' _ _).chain'
  · have hmapsnd : (dailyCountsOf rows).map Prod.snd =
        (List.range' (natsMin (rows.map (fun r => r.date)))
          (natsMax (rows.map (fun r => r.date)) + 1 -
            natsMin (rows.map (fun r => r.date)))).map
          (fun day => (rows.filter (fun r => r.date = day)).length) := by
      simp only [dailyCountsOf, List.map_map]
      rfl
    rw [hmapsnd]
    refine length_eq_sum_counts (fun r => r.date) rows _ hnd ?_
    intro r hr
    exact (hmem r.date).mpr ⟨natsMin_le (List.mem_map.mpr ⟨r, hr, rfl⟩),
      le_natsMax (List.mem_map.mpr ⟨r, hr, rfl⟩)⟩

/-- Witness for C1 on the three-day fixture document (2023-01-02 is day
738522, inside the range). -/
theorem C1_daily_series_witness :
    ((dailyCountsOf (normalizedRows [msgA, msgB])).map Prod.fst).count 738522 =
      (if natsMin ((normalizedRows [msgA, msgB]).map (fun r => r.date)) ≤
            738522 ∧
          738522 ≤ natsMax ((normalizedRows [msgA, msgB]).map (fun r => r.date))
        then 1 else 0) ∧
    List.Chain' (· < ·)
      ((dailyCountsOf (normalizedRows [msgA, msgB])).map Prod.fst) ∧
    ((dailyCountsOf (normalizedRows [msgA, msgB])).map Prod.snd).sum =
      (normalizedRows [msgA, msgB]).length := by
  have h := C1_daily_series docAB _ _ _ _ rfl
  exact ⟨h.1 738522, h.2.1, h.2.2⟩

/-- C2 counterexample: `ё` (U+0451) is a Cyrillic letter and is already
lowercase, yet ranking the text `"ёж"` strips it: the cleaned text and the
resulting ranking keep only `ж`. -/
theorem C2_counterexample :
    isCyrillicLetter 'ё' = true ∧
    pyLower "ёж" = "ёж" ∧
    reSubChars (pyLower "ёж").data = ['ж'] ∧
    get_word_frequency "ёж" none 20 = [("ж", 1)] := by
  decide

/-- C2 (amended): `get_word_frequency` lowercases the text and then strips
exactly the characters outside `а`-`я` (U+0430..U+044F), `a`-`z`, and
whitespace — every ranked word consists solely of such letters, and every
such letter of the lowercased text is kept with its multiplicity — but
Cyrillic letters outside `а`-`я`, such as `ё`, are discarded. -/
theorem C2_character_filter (text : String) (sw : Option (List String))
    (n : Nat) :
    (∀ p ∈ get_word_frequency text sw n, ∀ ch ∈ p.1.data,
      isLetterChar ch = true) ∧
    (∀ ch : Char, isLetterChar ch = true →
      (reSubChars (pyLower text).data).count ch =
        (pyLower text).data.count ch) := by
  constructor
  · intro p hp ch hch
    exact ((gwfWords_spec (gwfKept_spec (get_word_frequency_mem hp).1).1).2)
      ch hch
  · intro ch hch
    exact count_reSubChars (keepChar_of_letter hch) _

/-- Witness for C2 at the letter `ж` of the text `"ёж"`. -/
theorem C2_character_filter_witness :
    isLetterChar 'ж' = true ∧
    (reSubChars (pyLower "ёж").data).count 'ж' =
      (pyLower "ёж").data.count 'ж' :=
  ⟨by decide, (C2_character_filter "ёж" none 20).2 'ж' (by decide)⟩

/-- C7: all four top-N truncations — the word ranking (N = 20) and the
top-10 sticker-emoji, text-emoji and reaction-emoji tables — return at most
N entries in descending count order, and are stable: within every count
value the returned entries are an initial segment of the
first-encountered-ordered item list. -/
theorem C7_topN_truncation (corpus : String) (sw : Option (List String))
    (rows : List Row) (emojis : List Char) (msgs : List RawMessage) :
    ((wordTable corpus sw).length ≤ 20 ∧ SortedDesc (wordTable corpus sw) ∧
      ∀ k, ∃ m, (wordTable corpus sw).filter (fun q => q.2 = k) =
        ((counterItems (gwfKept corpus sw)).filter (fun q => q.2 = k)).take m) ∧
    ((stickerTable rows).length ≤ 10 ∧ SortedDesc (stickerTable rows) ∧
      ∀ k, ∃ m, (stickerTable rows).filter (fun q => q.2 = k) =
        ((counterItems (stickerEmojiValues rows)).filter
          (fun q => q.2 = k)).take m) ∧
    ((textEmojiTable emojis).length ≤ 10 ∧ SortedDesc (textEmojiTable emojis) ∧
      ∀ k, ∃ m, (textEmojiTable emojis).filter (fun q => q.2 = k) =
        ((counterItems emojis).filter (fun q => q.2 = k)).take m) ∧
    ((reactionTable msgs).length ≤ 10 ∧ SortedDesc (reactionTable msgs) ∧
      ∀ k, ∃ m, (reactionTable msgs).filter (fun q => q.2 = k) =
        ((reactionTally msgs).filter (fun q => q.2 = k)).take m) :=
  ⟨mostCommon_spec 20 _, mostCommon_spec 10 _, mostCommon_spec 10 _,
    mostCommon_spec 10 _⟩

/-- C8: the word ranking contains no stopword, and re-ranking a corpus built
only from the already-ranked top words (each repeated its count,
space-joined) reproduces the ranking — order included — exactly. -/
theorem C8_ranking_idempotent (text : String) (sw : List String) (n : Nat) :
    (∀ p ∈ get_word_frequency text (some sw) n, p.1 ∉ sw) ∧
    get_word_frequency
      (pyJoin ((get_word_frequency text (some sw) n).flatMap
        (fun p => List.replicate p.2 p.1))) (some sw) n =
      get_word_frequency text (some sw) n := by
  have hstop : ∀ p ∈ get_word_frequency text (some sw) n, p.1 ∉ sw := by
    intro p hp
    have h2 := (gwfKept_spec (get_word_frequency_mem hp).1).2
    simpa using h2
  refine ⟨hstop, ?_⟩
  refine rank_of_replicated sw n _ ?_ ?_ ?_ ?_ ?_ hstop
  · exact nodup_fst_mostCommon
      (by rw [counterItems_map_fst]; exact nodup_dedupFirst _) n
  · exact (mostCommon_spec n _).2.1
  · intro p hp
    obtain ⟨hmem, hcnt⟩ := get_word_frequency_mem hp
    rw [hcnt]
    exact List.count_pos_iff.mpr hmem
  · exact (mostCommon_spec n _).1
  · intro p hp
    exact gwfWords_spec (gwfKept_spec (get_word_frequency_mem hp).1).1

/-- Witness for C8 on the corpus `"a b a"` with stopword `"b"`. -/
theorem C8_ranking_idempotent_witness :
    (("a" : String) ∉ (["b"] : List String)) ∧
    get_word_frequency
      (pyJoin ((get_word_frequency "a b a" (some ["b"]) 20).flatMap
        (fun p => List.replicate p.2 p.1))) (some ["b"]) 20 =
      get_word_frequency "a b a" (some ["b"]) 20 := by
  have h := C8_ranking_idempotent "a b a" ["b"] 20
  exact ⟨h.1 ("a", 2) (by decide), h.2⟩

end Chikavo
